import Mathlib

/-!
Shallow embedding of the retrieval / context-assembly engine of the
AI document analyzer backend, together with proofs of the specified
properties.

Source files embedded here:
- `documents/services/hybrid_rag_service.py` (hybrid mode selector)
- `documents/services/chunking.py` (token-bounded chunker)
- `documents/services/enhanced_pinecone_service.py` (vector creation,
  smart retrieval, match normalization)
- `chat/views.py` (chat endpoint validation and `top_k` handling)
- the `ResultMerger` component (modelled from the spec; the merger has no
  implementation under the embedded sources)

Conventions: machine integers are `Nat`/`Int`; Python floats that only
carry similarity scores are `ℚ`; fallible code returns `Except`;
injected collaborators (token counter, hash, embedding gateway, vector
store engine) are explicit function parameters.
-/

namespace DocAnalyzer

/-! ## Python string primitives used by the embedded code -/

/-- Python `str.isspace`-style whitespace set used by `str.strip()`
(restricted to the ASCII whitespace characters that can occur here). -/
def pyIsSpace (c : Char) : Bool :=
  c = ' ' || c = '\t' || c = '\n' || c = '\r' || c = '\x0b' || c = '\x0c'

/-- Python `s.strip()`: remove leading and trailing whitespace. -/
def pyStrip (s : String) : String :=
  String.mk (((s.data.dropWhile pyIsSpace).reverse.dropWhile pyIsSpace).reverse)

/-- Python `'sep'.join(parts)`. -/
def joinSep (sep : String) : List String → String
  | [] => ""
  | [p] => p
  | p :: rest => p ++ sep ++ joinSep sep rest

/-- Python `s[:n]` slicing (by code point). -/
def pyTake (n : Nat) (s : String) : String :=
  String.mk (s.data.take n)

/-- ASCII lower-casing of one character (all the keywords and flags the
embedded code lower-cases are ASCII). -/
def asciiToLower (c : Char) : Char :=
  if 'A' ≤ c ∧ c ≤ 'Z' then Char.ofNat (c.toNat + 32) else c

/-- Python `s.lower()` (ASCII). -/
def pyLower (s : String) : String :=
  String.mk (s.data.map asciiToLower)

/-- Does `t` begin with the pattern `p`? -/
def listStarts (p : List Char) (t : List Char) : Bool :=
  match p, t with
  | [], _ => true
  | _ :: _, [] => false
  | a :: p', b :: t' => a = b && listStarts p' t'

/-- Does the pattern `p` occur anywhere in `t`? -/
def listHasSub (p : List Char) : List Char → Bool
  | [] => listStarts p []
  | c :: t => listStarts p (c :: t) || listHasSub p t

/-- Python `kw in s` substring test. -/
def containsSub (s kw : String) : Bool :=
  listHasSub kw.data s.data

/-! ## Python value model for duck-typed data (match dicts, metadata) -/

/-- A Python value as it appears in the duck-typed match/metadata handling:
`None`, a string, a float (modelled by `ℚ`), or a dict. -/
inductive PyVal where
  | pyNone
  | str (s : String)
  | num (q : ℚ)
  | dict (entries : List (String × PyVal))
deriving Repr

/-- Python truthiness of a `PyVal` (`None`, `""`, `0.0` and `{}` are falsy). -/
def pyTruthy : PyVal → Bool
  | .pyNone => false
  | .str s => s ≠ ""
  | .num q => q ≠ 0
  | .dict d => !d.isEmpty

/-! ## Chunker (`documents/services/chunking.py`) -/

/-- `is_section_header`: does the stripped line match the regular expression
`^\d+\.\d*\s+[A-Z]` (as in `"3.0 THE SUBCONTRACT SUM"`)? -/
def headerMatch (cs : List Char) : Bool :=
  (cs.takeWhile Char.isDigit ≠ []) &&
  (match cs.dropWhile Char.isDigit with
   | '.' :: r2 =>
      let r3 := r2.dropWhile Char.isDigit
      (r3.takeWhile pyIsSpace ≠ []) &&
      (match r3.dropWhile pyIsSpace with
       | c :: _ => 'A' ≤ c && c ≤ 'Z'
       | [] => false)
   | _ => false)

/-- `is_section_header(line)`. -/
def is_section_header (line : String) : Bool :=
  headerMatch (pyStrip line).data

/-- `extract_section_number`: the `^(\d+\.\d*)` match of the stripped text,
or `""` when there is none. -/
def extract_section_number (text : String) : String :=
  let cs := (pyStrip text).data
  let ds := cs.takeWhile Char.isDigit
  if ds = [] then ""
  else
    match cs.dropWhile Char.isDigit with
    | '.' :: r2 => String.mk (ds ++ '.' :: r2.takeWhile Char.isDigit)
    | _ => ""

/-- `paragraphs = [p.strip() for p in text.split('\n\n') if p.strip()]`.
`splitOnBlank` is `str.split('\n\n')` written structurally over the
character list. -/
def splitOnBlank : List Char → List (List Char)
  | [] => [[]]
  | '\n' :: '\n' :: rest => [] :: splitOnBlank rest
  | c :: rest =>
      match splitOnBlank rest with
      | [] => [[c]]
      | l :: ls => (c :: l) :: ls

/-- The paragraph list the chunker iterates over. -/
def paragraphsOf (text : String) : List String :=
  ((splitOnBlank text.data).map (fun cs => pyStrip (String.mk cs))).filter
    (fun p => p ≠ "")

/-- One chunk dict produced by `chunk_text` (the optional `embedding_text` /
`semantic_metadata` keys are added later by `enhance_chunks_for_rag`). -/
structure Chunk where
  text : String
  hash : String
  index : Nat
  sectionLabel : Option String
  tokens : Nat
  embeddingText : Option String := none
  semanticMeta : Option PyVal := none
deriving Repr

/-- The chunk dict appended by `chunk_text` at a flush point: text is
`'\n\n'.join(current_chunk)`, the hash is the (injected) hash function `H`
over that text, the index is the number of chunks emitted so far. -/
def mkChunk (H : String → String) (idx : Nat) (sec : Option String)
    (tok : Nat) (cur : List String) : Chunk :=
  let t := joinSep "\n\n" cur
  { text := t, hash := H t, index := idx, sectionLabel := sec, tokens := tok }

/-- The overlap loop of `chunk_text`: walk `current_chunk` from the end,
greedily keeping whole paragraphs while their token total stays within
`overlap_tokens`; returns the kept paragraphs (in original order) and their
token total. Called as `overlapContent tc ovT cur.reverse 0`. -/
def overlapContentRev (tc : String → Nat) (ovT : Nat) :
    List String → Nat → List String × Nat
  | [], cnt => ([], cnt)
  | p :: rest, cnt =>
      let pt := tc p
      if cnt + pt ≤ ovT then
        let r := overlapContentRev tc ovT rest (cnt + pt)
        (r.1 ++ [p], r.2)
      else ([], cnt)

/-- `overlap_content`, `overlap_tokens_count` after the overlap loop. -/
def overlapContent (tc : String → Nat) (ovT : Nat) (cur : List String) :
    List String × Nat :=
  overlapContentRev tc ovT cur.reverse 0

/-- The paragraph loop of `chunk_text` (`documents/services/chunking.py`
lines 54-118), with state `chunks`, `current_chunk`, `current_tokens`,
`current_section`; the token counter `tc` is the pluggable token-counting
function and `H` the chunk hash (sha256 hex in the source). -/
def chunkCore (tc : String → Nat) (H : String → String) (maxT ovT : Nat) :
    List String → List Chunk → List String → Nat → Option String → List Chunk
  | [], chunks, cur, curTok, sec =>
      if cur ≠ [] then chunks ++ [mkChunk H chunks.length sec curTok cur]
      else chunks
  | para :: rest, chunks, cur, curTok, sec =>
      let pt := tc para
      if is_section_header para then
        let chunks' :=
          if cur ≠ [] then chunks ++ [mkChunk H chunks.length sec curTok cur]
          else chunks
        let e := extract_section_number para
        let sec' := some (if e ≠ "" then e else pyTake 30 para)
        chunkCore tc H maxT ovT rest chunks' [para] pt sec'
      else if curTok + pt > maxT ∧ cur ≠ [] then
        let chunks' := chunks ++ [mkChunk H chunks.length sec curTok cur]
        let ov := overlapContent tc ovT cur
        chunkCore tc H maxT ovT rest chunks' (ov.1 ++ [para]) (ov.2 + pt) sec
      else
        chunkCore tc H maxT ovT rest chunks (cur ++ [para]) (curTok + pt) sec

/-- `chunk_text(text, max_tokens, overlap_tokens, token_model)`; the token
model is abstracted into the counting function `tc`. -/
def chunk_text (tc : String → Nat) (H : String → String) (maxT ovT : Nat)
    (text : String) : List Chunk :=
  chunkCore tc H maxT ovT (paragraphsOf text) [] [] 0 none

/-! ### Instrumented chunker

`chunkAnn` is `chunkCore` with the in-progress chunk split into its overlap
paragraphs (repeated from the previous chunk) and its new paragraphs, and
with the cause of each chunk's starting boundary recorded. `chunkCore` is
proved to be its projection. -/

/-- Why a chunk started: it is the first chunk, a section header forced the
boundary, or the size limit forced it. -/
inductive Cause where
  | first
  | header
  | size
deriving Repr, DecidableEq

/-- An output chunk of the instrumented chunker. -/
structure AnnChunk where
  ovParas : List String
  newParas : List String
  sectionLabel : Option String
  tokens : Nat
  index : Nat
  cause : Cause
deriving Repr, DecidableEq

/-- Render an instrumented chunk as the chunk dict `chunk_text` emits. -/
def renderAnn (H : String → String) (a : AnnChunk) : Chunk :=
  mkChunk H a.index a.sectionLabel a.tokens (a.ovParas ++ a.newParas)

/-- Instrumented version of `chunkCore`: `current_chunk = ov ++ news`. -/
def chunkAnn (tc : String → Nat) (maxT ovT : Nat) :
    List String → List AnnChunk → List String → List String → Nat →
      Option String → Cause → List AnnChunk
  | [], acc, ov, news, tok, sec, cause =>
      if ov ++ news ≠ [] then acc ++ [⟨ov, news, sec, tok, acc.length, cause⟩]
      else acc
  | para :: rest, acc, ov, news, tok, sec, cause =>
      let pt := tc para
      if is_section_header para then
        let acc' :=
          if ov ++ news ≠ [] then
            acc ++ [⟨ov, news, sec, tok, acc.length, cause⟩]
          else acc
        let e := extract_section_number para
        let sec' := some (if e ≠ "" then e else pyTake 30 para)
        chunkAnn tc maxT ovT rest acc' [] [para] pt sec' .header
      else if tok + pt > maxT ∧ ov ++ news ≠ [] then
        let acc' := acc ++ [⟨ov, news, sec, tok, acc.length, cause⟩]
        let ovc := overlapContent tc ovT (ov ++ news)
        chunkAnn tc maxT ovT rest acc' ovc.1 [para] (ovc.2 + pt) sec .size
      else
        chunkAnn tc maxT ovT rest acc ov (news ++ [para]) (tok + pt) sec cause

/-- The instrumented run behind `chunk_text text`. -/
def chunkAnnOf (tc : String → Nat) (maxT ovT : Nat) (text : String) :
    List AnnChunk :=
  chunkAnn tc maxT ovT (paragraphsOf text) [] [] [] 0 none .first

/-! ### Chunker lemmas -/

theorem joinSep_cons_of_ne (sep p : String) (l : List String) (h : l ≠ []) :
    joinSep sep (p :: l) = p ++ sep ++ joinSep sep l := by
  cases l with
  | nil => exact absurd rfl h
  | cons q l' => rfl

theorem joinSep_append_of_ne (sep : String) (l1 l2 : List String)
    (h : l2 ≠ []) :
    joinSep sep (l1 ++ l2) =
      if l1 = [] then joinSep sep l2
      else joinSep sep l1 ++ sep ++ joinSep sep l2 := by
  induction l1 with
  | nil => simp
  | cons p l1' ih =>
    by_cases h1 : l1' = []
    · subst h1
      simp [joinSep_cons_of_ne sep p l2 h, joinSep]
    · have hne : l1' ++ l2 ≠ [] := by
        simp [List.append_eq_nil]
        intro h'
        exact absurd h' h1
      rw [List.cons_append, joinSep_cons_of_ne sep p (l1' ++ l2) hne, ih,
        joinSep_cons_of_ne sep p l1' h1]
      simp [h1, String.append_assoc]

theorem flatten_ne_nil_of_head_ne_nil {α : Type} (l : List α) (ls : List (List α))
    (h : l ≠ []) : (l :: ls).flatten ≠ [] := by
  simp [List.flatten_cons, List.append_eq_nil]
  intro h'
  exact absurd h' h

/-- Joining the per-chunk joins equals joining the concatenation, provided
no part is empty. -/
theorem joinSep_nested (sep : String) :
    ∀ ls : List (List String), (∀ l ∈ ls, l ≠ []) →
      joinSep sep (ls.map (joinSep sep)) = joinSep sep ls.flatten := by
  intro ls
  induction ls with
  | nil => intro _; rfl
  | cons l ls' ih =>
    intro hne
    cases ls' with
    | nil => simp [joinSep]
    | cons l2 rest =>
      have hl : l ≠ [] := hne l (by simp)
      have hl2 : l2 ≠ [] := hne l2 (by simp)
      have hjoin : (l2 :: rest).flatten ≠ [] := flatten_ne_nil_of_head_ne_nil l2 rest hl2
      have hmapne : (l2 :: rest).map (joinSep sep) ≠ [] := by simp
      rw [List.map_cons, joinSep_cons_of_ne sep _ _ hmapne,
        ih (fun x hx => hne x (by simp [hx]))]
      conv_rhs => rw [List.flatten_cons]
      rw [joinSep_append_of_ne sep l ((l2 :: rest).flatten) hjoin]
      simp [hl]

/-- `chunkCore` is the projection of the instrumented `chunkAnn`. -/
theorem chunkCore_eq_chunkAnn (tc : String → Nat) (H : String → String)
    (maxT ovT : Nat) :
    ∀ (ps : List String) (acc : List AnnChunk) (ov news : List String)
      (tok : Nat) (sec : Option String) (cause : Cause),
    chunkCore tc H maxT ovT ps (acc.map (renderAnn H)) (ov ++ news) tok sec =
      (chunkAnn tc maxT ovT ps acc ov news tok sec cause).map (renderAnn H) := by
  intro ps
  induction ps with
  | nil =>
    intro acc ov news tok sec cause
    simp only [chunkCore, chunkAnn]
    by_cases h : ov ++ news = []
    · simp [h]
    · simp [h, renderAnn, List.length_map]
  | cons para rest ih =>
    intro acc ov news tok sec cause
    simp only [chunkCore, chunkAnn]
    have hflush :
        (if (ov ++ news) ≠ [] then
            acc.map (renderAnn H) ++
              [mkChunk H (acc.map (renderAnn H)).length sec tok (ov ++ news)]
          else acc.map (renderAnn H)) =
        (if (ov ++ news) ≠ [] then
            acc ++ [⟨ov, news, sec, tok, acc.length, cause⟩]
          else acc).map (renderAnn H) := by
      by_cases h : ov ++ news = []
      · simp [h]
      · simp [h, renderAnn, List.length_map]
    by_cases hh : is_section_header para = true
    · simp only [if_pos hh]
      rw [hflush]
      exact ih _ [] [para] _ _ .header
    · simp only [if_neg hh]
      by_cases hsz : tok + tc para > maxT ∧ ov ++ news ≠ []
      · simp only [if_pos hsz]
        have h2 :
            acc.map (renderAnn H) ++
              [mkChunk H (acc.map (renderAnn H)).length sec tok (ov ++ news)] =
            (acc ++ [(⟨ov, news, sec, tok, acc.length, cause⟩ : AnnChunk)]).map
              (renderAnn H) := by
          simp [renderAnn, List.length_map]
        rw [h2]
        exact ih _ _ _ _ _ .size
      · simp only [if_neg hsz]
        rw [List.append_assoc]
        exact ih _ _ _ _ _ cause

/-- Coverage invariant: the concatenation of the new (non-overlap) paragraph
lists of the output chunks is the already-emitted material plus the current
new paragraphs plus the remaining paragraphs. -/
theorem chunkAnn_newParas_join (tc : String → Nat) (maxT ovT : Nat) :
    ∀ (ps : List String) (acc : List AnnChunk) (ov news : List String)
      (tok : Nat) (sec : Option String) (cause : Cause),
    ((chunkAnn tc maxT ovT ps acc ov news tok sec cause).map
        AnnChunk.newParas).flatten =
      (acc.map AnnChunk.newParas).flatten ++ news ++ ps := by
  intro ps
  induction ps with
  | nil =>
    intro acc ov news tok sec cause
    simp only [chunkAnn]
    by_cases h : ov ++ news = []
    · obtain ⟨hov, hnews⟩ := List.append_eq_nil.mp h
      simp [hov, hnews]
    · simp [h]
  | cons para rest ih =>
    intro acc ov news tok sec cause
    simp only [chunkAnn]
    by_cases hh : is_section_header para = true
    · simp only [if_pos hh]
      rw [ih]
      by_cases h : ov ++ news = []
      · obtain ⟨hov, hnews⟩ := List.append_eq_nil.mp h
        simp [hov, hnews]
      · simp [h]
    · simp only [if_neg hh]
      by_cases hsz : tok + tc para > maxT ∧ ov ++ news ≠ []
      · simp only [if_pos hsz]
        rw [ih]
        simp
      · simp only [if_neg hsz]
        rw [ih]
        simp

/-- Every emitted chunk has at least one new (non-overlap) paragraph. -/
theorem chunkAnn_newParas_ne_nil (tc : String → Nat) (maxT ovT : Nat) :
    ∀ (ps : List String) (acc : List AnnChunk) (ov news : List String)
      (tok : Nat) (sec : Option String) (cause : Cause),
    (∀ a ∈ acc, a.newParas ≠ []) → (news = [] → ov = []) →
    ∀ a ∈ chunkAnn tc maxT ovT ps acc ov news tok sec cause,
      a.newParas ≠ [] := by
  intro ps
  induction ps with
  | nil =>
    intro acc ov news tok sec cause hacc hnews a ha
    simp only [chunkAnn] at ha
    by_cases h : ov ++ news = []
    · rw [if_neg (fun hc => hc h)] at ha
      exact hacc a ha
    · rw [if_pos h] at ha
      rcases List.mem_append.mp ha with ha | ha
      · exact hacc a ha
      · have hae : a = ⟨ov, news, sec, tok, acc.length, cause⟩ := by
          simpa using ha
        subst hae
        intro h'
        have h2 : news = [] := h'
        exact h (by simp [h2, hnews h2])
  | cons para rest ih =>
    intro acc ov news tok sec cause hacc hnews a ha
    simp only [chunkAnn] at ha
    have haccflush : ∀ b ∈ (if ov ++ news ≠ [] then
        acc ++ [(⟨ov, news, sec, tok, acc.length, cause⟩ : AnnChunk)]
        else acc), b.newParas ≠ [] := by
      intro b hb
      by_cases h : ov ++ news = []
      · rw [if_neg (fun hc => hc h)] at hb
        exact hacc b hb
      · rw [if_pos h] at hb
        rcases List.mem_append.mp hb with hb | hb
        · exact hacc b hb
        · have hbe : b = ⟨ov, news, sec, tok, acc.length, cause⟩ := by
            simpa using hb
          subst hbe
          intro h'
          have h2 : news = [] := h'
          exact h (by simp [h2, hnews h2])
    by_cases hh : is_section_header para = true
    · rw [if_pos hh] at ha
      exact ih _ _ _ _ _ _ haccflush (by simp) a ha
    · rw [if_neg hh] at ha
      by_cases hsz : tok + tc para > maxT ∧ ov ++ news ≠ []
      · rw [if_pos hsz] at ha
        refine ih _ _ _ _ _ _ ?_ (by simp) a ha
        intro b hb
        rcases List.mem_append.mp hb with hb | hb
        · exact hacc b hb
        · have hbe : b = ⟨ov, news, sec, tok, acc.length, cause⟩ := by
            simpa using hb
          subst hbe
          intro h'
          have h2 : news = [] := h'
          exact hsz.2 (by simp [h2, hnews h2])
      · rw [if_neg hsz] at ha
        exact ih _ _ _ _ _ _ hacc (by simp) a ha

/-- The chunk indexes are the positions `0, 1, 2, …`. -/
theorem chunkAnn_index_range (tc : String → Nat) (maxT ovT : Nat) :
    ∀ (ps : List String) (acc : List AnnChunk) (ov news : List String)
      (tok : Nat) (sec : Option String) (cause : Cause),
    acc.map AnnChunk.index = List.range acc.length →
    (chunkAnn tc maxT ovT ps acc ov news tok sec cause).map AnnChunk.index =
      List.range (chunkAnn tc maxT ovT ps acc ov news tok sec cause).length := by
  intro ps
  induction ps with
  | nil =>
    intro acc ov news tok sec cause hacc
    simp only [chunkAnn]
    by_cases h : ov ++ news = []
    · rw [if_neg (fun hc => hc h)]
      exact hacc
    · rw [if_pos h]
      simp [hacc, List.range_succ]
  | cons para rest ih =>
    intro acc ov news tok sec cause hacc
    simp only [chunkAnn]
    have hstep :
        (acc ++ [(⟨ov, news, sec, tok, acc.length, cause⟩ : AnnChunk)]).map
            AnnChunk.index =
          List.range
            (acc ++ [(⟨ov, news, sec, tok, acc.length, cause⟩ :
              AnnChunk)]).length := by
      simp [hacc, List.range_succ]
    by_cases hh : is_section_header para = true
    · rw [if_pos hh]
      apply ih
      by_cases h : ov ++ news = []
      · rw [if_neg (fun hc => hc h)]
        exact hacc
      · rw [if_pos h]
        exact hstep
    · rw [if_neg hh]
      by_cases hsz : tok + tc para > maxT ∧ ov ++ news ≠ []
      · rw [if_pos hsz]
        exact ih _ _ _ _ _ _ hstep
      · rw [if_neg hsz]
        exact ih _ _ _ _ _ _ hacc

/-- Relation between consecutive output chunks: a chunk whose boundary was
forced by size carries as overlap the greedy paragraph suffix of the
previous chunk; any other chunk carries no overlap paragraphs. -/
def overlapRel (tc : String → Nat) (ovT : Nat) (a b : AnnChunk) : Prop :=
  (b.cause = Cause.size →
    b.ovParas = (overlapContent tc ovT (a.ovParas ++ a.newParas)).1) ∧
  (b.cause ≠ Cause.size → b.ovParas = [])

theorem overlapRel_of_not_size (tc : String → Nat) (ovT : Nat)
    (a b : AnnChunk) (hc : b.cause ≠ Cause.size) (ho : b.ovParas = []) :
    overlapRel tc ovT a b :=
  ⟨fun h => absurd h hc, fun _ => ho⟩

theorem chunkAnn_chain (tc : String → Nat) (maxT ovT : Nat) :
    ∀ (ps : List String) (acc : List AnnChunk) (ov news : List String)
      (tok : Nat) (sec : Option String) (cause : Cause),
    List.Chain' (overlapRel tc ovT)
      (acc ++ [⟨ov, news, sec, tok, acc.length, cause⟩]) →
    List.Chain' (overlapRel tc ovT)
      (chunkAnn tc maxT ovT ps acc ov news tok sec cause) := by
  intro ps
  induction ps with
  | nil =>
    intro acc ov news tok sec cause hchain
    simp only [chunkAnn]
    by_cases h : ov ++ news = []
    · rw [if_neg (fun hc => hc h)]
      exact (List.chain'_append.mp hchain).1
    · rw [if_pos h]
      exact hchain
  | cons para rest ih =>
    intro acc ov news tok sec cause hchain
    simp only [chunkAnn]
    obtain ⟨haccchain, -, hlastrel⟩ := List.chain'_append.mp hchain
    by_cases hh : is_section_header para = true
    · rw [if_pos hh]
      apply ih
      by_cases h : ov ++ news = []
      · rw [if_neg (fun hc => hc h)]
        refine List.chain'_append.mpr ⟨haccchain, List.chain'_singleton _, ?_⟩
        intro x hx y hy
        simp only [List.head?_cons, Option.mem_def, Option.some.injEq] at hy
        subst hy
        exact overlapRel_of_not_size tc ovT x _ (by simp) rfl
      · rw [if_pos h]
        refine List.chain'_append.mpr ⟨hchain, List.chain'_singleton _, ?_⟩
        intro x hx y hy
        simp only [List.head?_cons, Option.mem_def, Option.some.injEq] at hy
        subst hy
        exact overlapRel_of_not_size tc ovT x _ (by simp) rfl
    · rw [if_neg hh]
      by_cases hsz : tok + tc para > maxT ∧ ov ++ news ≠ []
      · rw [if_pos hsz]
        apply ih
        refine List.chain'_append.mpr ⟨hchain, List.chain'_singleton _, ?_⟩
        intro x hx y hy
        simp only [List.head?_cons, Option.mem_def, Option.some.injEq] at hy
        subst hy
        rw [List.getLast?_concat, Option.mem_def, Option.some.injEq] at hx
        subst hx
        exact ⟨fun _ => rfl, fun hc => absurd rfl hc⟩
      · rw [if_neg hsz]
        apply ih
        refine List.chain'_append.mpr
          ⟨haccchain, List.chain'_singleton _, ?_⟩
        intro x hx y hy
        simp only [List.head?_cons, Option.mem_def, Option.some.injEq] at hy
        subst hy
        have hr := hlastrel x hx _ rfl
        exact ⟨fun hc => hr.1 hc, fun hc => hr.2 hc⟩

/-- Chunks whose boundary was not forced by the size limit (the first chunk
and header-started chunks) carry no overlap paragraphs. -/
theorem chunkAnn_ovParas_eq_nil (tc : String → Nat) (maxT ovT : Nat) :
    ∀ (ps : List String) (acc : List AnnChunk) (ov news : List String)
      (tok : Nat) (sec : Option String) (cause : Cause),
    (∀ a ∈ acc, a.cause ≠ Cause.size → a.ovParas = []) →
    (cause ≠ Cause.size → ov = []) →
    ∀ a ∈ chunkAnn tc maxT ovT ps acc ov news tok sec cause,
      a.cause ≠ Cause.size → a.ovParas = [] := by
  intro ps
  induction ps with
  | nil =>
    intro acc ov news tok sec cause hacc hcause a ha
    simp only [chunkAnn] at ha
    by_cases h : ov ++ news = []
    · rw [if_neg (fun hc => hc h)] at ha
      exact hacc a ha
    · rw [if_pos h] at ha
      rcases List.mem_append.mp ha with ha | ha
      · exact hacc a ha
      · have hae : a = ⟨ov, news, sec, tok, acc.length, cause⟩ := by
          simpa using ha
        subst hae
        intro hc
        exact hcause hc
  | cons para rest ih =>
    intro acc ov news tok sec cause hacc hcause a ha
    simp only [chunkAnn] at ha
    have haccflush : ∀ b ∈ (if ov ++ news ≠ [] then
        acc ++ [(⟨ov, news, sec, tok, acc.length, cause⟩ : AnnChunk)]
        else acc), b.cause ≠ Cause.size → b.ovParas = [] := by
      intro b hb
      by_cases h : ov ++ news = []
      · rw [if_neg (fun hc => hc h)] at hb
        exact hacc b hb
      · rw [if_pos h] at hb
        rcases List.mem_append.mp hb with hb | hb
        · exact hacc b hb
        · have hbe : b = ⟨ov, news, sec, tok, acc.length, cause⟩ := by
            simpa using hb
          subst hbe
          intro hc
          exact hcause hc
    by_cases hh : is_section_header para = true
    · rw [if_pos hh] at ha
      exact ih _ _ _ _ _ _ haccflush (fun _ => rfl) a ha
    · rw [if_neg hh] at ha
      by_cases hsz : tok + tc para > maxT ∧ ov ++ news ≠ []
      · rw [if_pos hsz] at ha
        refine ih _ _ _ _ _ _ ?_ (fun hc => absurd rfl hc) a ha
        intro b hb
        rcases List.mem_append.mp hb with hb | hb
        · exact hacc b hb
        · have hbe : b = ⟨ov, news, sec, tok, acc.length, cause⟩ := by
            simpa using hb
          subst hbe
          intro hc
          exact hcause hc
      · rw [if_neg hsz] at ha
        exact ih _ _ _ _ _ _ hacc hcause a ha

/-! ### Concrete collaborators for witness evaluation -/

/-- A concrete token counter for witnesses (one token per character). -/
def charTokens (s : String) : Nat := s.length

/-- A concrete stand-in for the sha256 hex digest in witnesses. -/
def testHash (s : String) : String := "#" ++ s

/-! ## HybridRAGService (`documents/services/hybrid_rag_service.py`) -/

/-- Default of `FULL_CONTEXT_CHAR_LIMIT` (`getattr(settings, 'FULL_CONTEXT_CHAR_LIMIT', 100000)`). -/
def defaultFullContextLimit : Nat := 100000

/-- The hybrid RAG service with its configured character threshold. -/
structure HybridRAGService where
  full_context_limit : Nat
deriving Repr, DecidableEq

/-- Result dictionary of `HybridRAGService.get_processing_mode`. -/
structure ProcessingMode where
  mode : String
  char_count : Nat
  estimated_tokens : Nat
  threshold : Nat
  reason : String
deriving Repr, DecidableEq

/-- `HybridRAGService.should_use_full_context`: `len(text) <= self.full_context_limit`. -/
def should_use_full_context (svc : HybridRAGService) (text : String) : Bool :=
  text.length ≤ svc.full_context_limit

/-- `HybridRAGService._get_mode_reason` (the Python format string's thousands
separators are not reproduced; only the branch wording matters). -/
def get_mode_reason (char_count : Nat) (use_full_context : Bool) : String :=
  if use_full_context then
    "Document is small (" ++ toString char_count ++ " chars), using full context for maximum accuracy"
  else
    "Document is large (" ++ toString char_count ++ " chars), using embeddings for scalability"

/-- `HybridRAGService.get_processing_mode`. -/
def get_processing_mode (svc : HybridRAGService) (text : String) : ProcessingMode :=
  let char_count := text.length
  let use_full_context := should_use_full_context svc text
  { mode := if use_full_context then "full_context" else "embeddings"
    char_count := char_count
    estimated_tokens := char_count / 4
    threshold := svc.full_context_limit
    reason := get_mode_reason char_count use_full_context }

/-! ## ChatView.create validation prefix (`chat/views.py`, lines 166-202) -/

/-- Outcome of the request-handling prefix of `ChatView.create`: either an
early HTTP error response (returned before any embedding / vector-store /
completion call is made), or the request proceeds to retrieval with the
effective `top_k`, the stripped message, and the debug flag. -/
inductive ChatOutcome where
  | badRequest (error : String)
  | notFound (error : String)
  | proceed (top_k : Int) (message : String) (debug : Bool)
deriving Repr, DecidableEq

/-- Effective `top_k` of `ChatView.create`: `int(request.data.get("top_k", 10))`
with any parse failure replaced by 10, then raised to 12 when below 12.
`none` stands for an absent or unparsable `top_k` value. -/
def effectiveTopK (top_k_raw : Option Int) : Int :=
  let t := top_k_raw.getD 10
  if t < 12 then 12 else t

/-- Request-handling prefix of `ChatView.create`: `session_id` presence check,
message strip/emptiness check, session lookup, `top_k` and `debug` parsing.
`session_id` is `request.data.get("session_id")` (`none` when absent),
`sessionExists` abstracts the `ChatSession.objects.get` lookup, `message` is
the raw `request.data.get("message", "")`, and `top_k_raw` is the result of
`int(...)` (`none` for absent or unparsable input). -/
def chatCreate (session_id : Option String) (sessionExists : Bool)
    (message : String) (top_k_raw : Option Int) (debug_raw : Option String) :
    ChatOutcome :=
  let msg := pyStrip message
  if session_id.getD "" = "" then
    .badRequest "session_id is required for chat."
  else if msg = "" then
    .badRequest "Message cannot be empty."
  else if ¬ sessionExists then
    .notFound "Session not found or you do not have permission to access it."
  else
    let top_k := effectiveTopK top_k_raw
    let debug := pyLower (debug_raw.getD "false") == "true"
    .proceed top_k msg debug

/-! ## EnhancedPineconeService (`documents/services/enhanced_pinecone_service.py`) -/

/-- A raw match as returned by the vector store client: either object-like
(attributes `id`, `score`, `metadata`; no `get` method) or map-like (a dict
with optional keys). -/
inductive RawMatch where
  | obj (id score metadata : PyVal)
  | map (entries : List (String × PyVal))
deriving Repr

/-- `getattr(m, key, default)`: attribute access; a plain dict does not
expose its keys as attributes, so map-like matches yield the default. -/
def RawMatch.attrOr (m : RawMatch) (key : String) (default : PyVal) : PyVal :=
  match m with
  | .obj i s md =>
      if key = "id" then i
      else if key = "score" then s
      else if key = "metadata" then md
      else default
  | .map _ => default

/-- `m.get(key, default)`: dict lookup; raises `AttributeError` on an
object-like match, which has no `get` method. -/
def RawMatch.dictGet (m : RawMatch) (key : String) (default : PyVal) :
    Except Unit PyVal :=
  match m with
  | .obj _ _ _ => .error ()
  | .map entries => .ok ((entries.lookup key).getD default)

/-- One normalized field: `getattr(m, key, None) or m.get(key, default)`
(the Python `or` falls through to `m.get` whenever the attribute value is
falsy). -/
def normField (m : RawMatch) (key : String) (default : PyVal) :
    Except Unit PyVal :=
  let g := m.attrOr key .pyNone
  if pyTruthy g then .ok g else m.dictGet key default

/-- The canonical match dict `{"id": …, "score": …, "metadata": …}`. -/
structure NormMatch where
  id : PyVal
  score : PyVal
  metadata : PyVal
deriving Repr

/-- Normalization of one raw match (`smart_retrieval`, lines 326-332):
`"id"` and `"score"` use `m.get(key)` (default `None`), `"metadata"` uses
`m.get("metadata", {})`. -/
def normalizeMatch (m : RawMatch) : Except Unit NormMatch := do
  let i ← normField m "id" .pyNone
  let s ← normField m "score" .pyNone
  let md ← normField m "metadata" (.dict [])
  return ⟨i, s, md⟩

/-- The normalization loop over all matches. -/
def normalizeMatches (ms : List RawMatch) : Except Unit (List NormMatch) :=
  ms.mapM normalizeMatch

/-- A Pinecone metadata filter as built by `hybrid_search`:
`content_types: {"$in": […]}` plus `{field: {"$eq": value}}` entries. -/
structure PineconeFilter where
  contentTypesIn : Option (List String)
  entityEq : List (String × Bool)
deriving Repr, DecidableEq

/-- `re.search(r'(?:kw|…)', query_lower)`: alternation of literal keywords,
i.e. any-substring. -/
def anyKeyword (q : String) (kws : List String) : Bool :=
  kws.any (fun kw => containsSub q kw)

/-- Keywords of the financial intent rule (line 279). -/
def financialKeywords : List String :=
  ["sum", "amount", "payment", "pay", "price", "cost", "total", "value",
   "money"]

/-- Keywords of the retention intent rule (line 284). -/
def retentionKeywords : List String :=
  ["retention", "holdback", "withhold", "percentage"]

/-- Keywords of the temporal intent rule (line 289). -/
def temporalKeywords : List String :=
  ["when", "date", "deadline", "commence", "start", "complete", "duration"]

/-- Keywords of the insurance intent rule (line 294). -/
def insuranceKeywords : List String :=
  ["insurance", "liability", "indemnity", "cover", "policy"]

/-- Keywords of the obligation intent rule (line 298). -/
def obligationKeywords : List String :=
  ["shall", "must", "require", "obligation", "responsible", "liable"]

/-- Intent detection of `smart_retrieval` (lines 271-299): the content-type
filter list and entity-presence filter dict derived from the lower-cased
query. -/
def detectFilters (query : String) : List String × List (String × Bool) :=
  let query_lower := pyLower query
  let content_filters :=
    (if anyKeyword query_lower financialKeywords then ["financial"]
     else []) ++
    (if anyKeyword query_lower retentionKeywords then ["retention"]
     else []) ++
    (if anyKeyword query_lower temporalKeywords then ["temporal"]
     else []) ++
    (if anyKeyword query_lower insuranceKeywords then ["insurance"]
     else []) ++
    (if anyKeyword query_lower obligationKeywords then ["obligation"]
     else [])
  let entity_filters :=
    (if anyKeyword query_lower financialKeywords then [("has_amounts", true)]
     else []) ++
    (if anyKeyword query_lower retentionKeywords then
      [("has_percentages", true)] else []) ++
    (if anyKeyword query_lower temporalKeywords then [("has_dates", true)]
     else [])
  (content_filters, entity_filters)

/-- Filter construction of `hybrid_search` (lines 231-247): empty inputs
(Python-falsy) contribute nothing, and an empty overall filter dict is
passed as `None`. -/
def buildPineconeFilter (content_type_filter : Option (List String))
    (entity_filter : Option (List (String × Bool))) : Option PineconeFilter :=
  let ctf : Option (List String) :=
    match content_type_filter with
    | some l => if l ≠ [] then some l else none
    | none => none
  let entf : List (String × Bool) :=
    match entity_filter with
    | some l => l
    | none => []
  if ctf = none ∧ entf = [] then none else some ⟨ctf, entf⟩

/-- A vector store query response: dict-like or object-like, with an
optional `matches` field; both a missing field and `None` stand for no
matches. -/
inductive QueryResponse where
  | dictResp (ms : Option (List RawMatch))
  | objResp (ms : Option (List RawMatch))
deriving Repr

/-- The match extraction of `smart_retrieval` (lines 310-314 and 319-322):
`r.get("matches", [])` for dicts, `getattr(r, "matches", []) or []` for
objects. -/
def QueryResponse.extract : QueryResponse → List RawMatch
  | .dictResp m => m.getD []
  | .objResp m => m.getD []

/-- `hybrid_search` (lines 212-250): the vector store engine's
`similarity_search` is the injected collaborator (its class is not among
the embedded sources); `hybrid_search` builds the filter and issues one
query. -/
def hybrid_search
    (similarity_search : String → Nat → Option PineconeFilter → QueryResponse)
    (query : String) (top_k : Nat)
    (content_type_filter : Option (List String))
    (entity_filter : Option (List (String × Bool))) : QueryResponse :=
  similarity_search query top_k
    (buildPineconeFilter content_type_filter entity_filter)

/-- The primary filtered pass of `smart_retrieval` (lines 271-314): detect
intent filters (when `auto_filter`), issue the filtered query, extract its
matches. -/
def smartPrimary
    (similarity_search : String → Nat → Option PineconeFilter → QueryResponse)
    (query : String) (top_k : Nat) (auto_filter : Bool) : List RawMatch :=
  let filters := if auto_filter then detectFilters query else ([], [])
  let content_filters := filters.1
  let entity_filters := filters.2
  (hybrid_search similarity_search query top_k
    (if content_filters ≠ [] then some content_filters else none)
    (if entity_filters ≠ [] then some entity_filters else none)).extract

/-- `smart_retrieval` (lines 252-334): primary filtered pass, unfiltered
fallback when the primary returned fewer than `max(3, top_k // 2)` matches,
then normalization. -/
def smart_retrieval
    (similarity_search : String → Nat → Option PineconeFilter → QueryResponse)
    (query : String) (top_k : Nat) (auto_filter : Bool) :
    Except Unit (List NormMatch) :=
  let ms := smartPrimary similarity_search query top_k auto_filter
  let ms :=
    if ms.length < max 3 (top_k / 2) then
      (similarity_search query top_k none).extract
    else ms
  normalizeMatches ms

/-! ### Vector creation (`_create_enhanced_vectors`, lines 94-146) -/

/-- A Pinecone vector dict `{"id": …, "values": …, "metadata": …}`. -/
structure PVector where
  id : String
  values : List ℚ
  metadata : List (String × PyVal)
deriving Repr

/-- One vector of `_create_enhanced_vectors`: the deterministic id is
`f"{document_id}:{chunk['index']}:{chunk_hash[:8]}"` with
`chunk_hash = chunk.get('hash') or sha256(chunk['text'])` (the hash is
recomputed with `H` when the stored one is missing or empty);
`_build_enhanced_metadata` (which embeds a wall-clock timestamp) is the
injected `buildMeta`. -/
def mkEnhancedVector (buildMeta : Chunk → List (String × PyVal))
    (H : String → String) (document_id : String) (c : Chunk)
    (emb : List ℚ) : PVector :=
  let chunk_hash := if c.hash ≠ "" then c.hash else H c.text
  { id := document_id ++ ":" ++ toString c.index ++ ":" ++ pyTake 8 chunk_hash
    values := emb
    metadata := buildMeta c }

/-- The batch loop of `_create_enhanced_vectors`
(`for i in range(0, len(enhanced_chunks), BATCH)` with `BATCH = 100`): each
batch of 100 texts goes to the engine's `_embed_batch` (the injected
`embedBatch`) and is zipped with its chunks. The fuel argument (the chunk
count at the call site) bounds the number of loop iterations, each of which
consumes 100 chunks. -/
def createVectorsLoop (embedBatch : List String → List (List ℚ))
    (buildMeta : Chunk → List (String × PyVal)) (H : String → String)
    (document_id : String) :
    Nat → List Chunk → List String → List PVector
  | 0, _, _ => []
  | _ + 1, [], _ => []
  | fuel + 1, c :: cs, ts =>
      let batch_chunks := (c :: cs).take 100
      let batch_texts := ts.take 100
      let embeddings := embedBatch batch_texts
      (batch_chunks.zip embeddings).map
        (fun p => mkEnhancedVector buildMeta H document_id p.1 p.2) ++
      createVectorsLoop embedBatch buildMeta H document_id fuel
        ((c :: cs).drop 100) (ts.drop 100)

/-- `_create_enhanced_vectors(enhanced_chunks, document_id, …)`: embedding
texts are `chunk.get('embedding_text', chunk['text'])`. -/
def createEnhancedVectors (embedBatch : List String → List (List ℚ))
    (buildMeta : Chunk → List (String × PyVal)) (H : String → String)
    (document_id : String) (enhanced_chunks : List Chunk) : List PVector :=
  let texts_for_embedding :=
    enhanced_chunks.map (fun c => c.embeddingText.getD c.text)
  createVectorsLoop embedBatch buildMeta H document_id enhanced_chunks.length
    enhanced_chunks texts_for_embedding

/-- `enhance_chunks_for_rag` (`semantic_processor.py`, lines 368-402): each
chunk keeps its original fields and gains `embedding_text` and
`semantic_metadata` from the semantic processor, abstracted as the injected
`enrich`. -/
def enhance_chunks_for_rag
    (enrich : String → Option String → String × PyVal)
    (chunks : List Chunk) : List Chunk :=
  chunks.map (fun c =>
    let r := enrich c.text c.sectionLabel
    { c with embeddingText := some r.1, semanticMeta := some r.2 })

/-- The vector-producing path of `store_text_with_semantics`
(lines 26-92, with semantic enrichment enabled): chunk, enrich, create
vectors. -/
def storeVectors (tc : String → Nat) (H : String → String) (maxT ovT : Nat)
    (enrich : String → Option String → String × PyVal)
    (embedBatch : List String → List (List ℚ))
    (buildMeta : Chunk → List (String × PyVal))
    (document_id : String) (text : String) : List PVector :=
  createEnhancedVectors embedBatch buildMeta H document_id
    (enhance_chunks_for_rag enrich (chunk_text tc H maxT ovT text))

/-- The deterministic vector id of a chunk. -/
def chunkVectorId (H : String → String) (document_id : String) (c : Chunk) :
    String :=
  document_id ++ ":" ++ toString c.index ++ ":" ++
    pyTake 8 (if c.hash ≠ "" then c.hash else H c.text)

/-! ## ResultMerger (modelled from the spec, §4.5) -/

/-- Modelled from the spec: a match as `ResultMerger.merge` consumes it —
vector id, optional similarity score (`none` for a match lacking a score),
metadata. The merger has no implementation among the embedded sources; this
and the following definitions follow §4.5 of the spec. -/
structure MergeMatch where
  id : String
  score : Option ℚ
  metadata : PyVal

/-- Rank of a match for sorting: its score, with scoreless matches at
bottom (so they sort after all scored matches in descending order). -/
def scoreRank (m : MergeMatch) : WithBot ℚ :=
  match m.score with
  | some q => (q : WithBot ℚ)
  | none => ⊥

/-- The descending-by-score order (scoreless last). -/
def scoreGE (a b : MergeMatch) : Prop := scoreRank b ≤ scoreRank a

instance : DecidableRel scoreGE := fun a b =>
  inferInstanceAs (Decidable (scoreRank b ≤ scoreRank a))

instance : IsTotal MergeMatch scoreGE :=
  ⟨fun a b => (le_total (scoreRank a) (scoreRank b)).symm⟩

instance : IsTrans MergeMatch scoreGE :=
  ⟨fun _ _ _ hab hbc => le_trans hbc hab⟩

/-- Modelled from the spec: one dedup step — if the id was already seen,
replace the kept entry when the new score is strictly higher (so equal
scores keep the first seen, at its original position); otherwise append. -/
def mergeStep (acc : List MergeMatch) (m : MergeMatch) : List MergeMatch :=
  if acc.any (fun e => e.id = m.id) then
    acc.map (fun e =>
      if e.id = m.id ∧ scoreRank e < scoreRank m then m else e)
  else acc ++ [m]

/-- Modelled from the spec: deduplicate pooled matches by vector id,
keeping for each id the entry with the higher score. -/
def dedupeById (pool : List MergeMatch) : List MergeMatch :=
  pool.foldl mergeStep []

/-- Modelled from the spec: `ResultMerger.merge` — dedup by id keeping the
higher score (ties keep the first seen), then stable sort descending by
score with scoreless matches after all scored ones. -/
def ResultMerger_merge (pool : List MergeMatch) : List MergeMatch :=
  List.insertionSort scoreGE (dedupeById pool)

/-! ### ResultMerger lemmas -/

theorem mem_of_mem_mergeStep (acc : List MergeMatch) (m e : MergeMatch)
    (he : e ∈ mergeStep acc m) : e ∈ acc ∨ e = m := by
  unfold mergeStep at he
  by_cases h : acc.any (fun x => x.id = m.id)
  · rw [if_pos h] at he
    obtain ⟨x, hx, hfx⟩ := List.mem_map.mp he
    by_cases hc : x.id = m.id ∧ scoreRank x < scoreRank m
    · rw [if_pos hc] at hfx
      exact Or.inr hfx.symm
    · rw [if_neg hc] at hfx
      exact Or.inl (hfx ▸ hx)
  · rw [if_neg h] at he
    rcases List.mem_append.mp he with he | he
    · exact Or.inl he
    · exact Or.inr (by simpa using he)

theorem foldl_mergeStep_mem :
    ∀ (pool acc : List MergeMatch) (e : MergeMatch),
    e ∈ pool.foldl mergeStep acc → e ∈ acc ∨ e ∈ pool := by
  intro pool
  induction pool with
  | nil =>
    intro acc e he
    exact Or.inl he
  | cons m rest ih =>
    intro acc e he
    rcases ih (mergeStep acc m) e he with he' | he'
    · rcases mem_of_mem_mergeStep acc m e he' with h | h
      · exact Or.inl h
      · exact Or.inr (by simp [h])
    · exact Or.inr (by simp [he'])

theorem mergeStep_ids (acc : List MergeMatch) (m : MergeMatch) :
    (mergeStep acc m).map MergeMatch.id =
      if acc.any (fun x => x.id = m.id) then acc.map MergeMatch.id
      else acc.map MergeMatch.id ++ [m.id] := by
  unfold mergeStep
  by_cases h : acc.any (fun x => x.id = m.id)
  · rw [if_pos h, if_pos h, List.map_map]
    refine List.map_congr_left ?_
    intro e _
    by_cases hc : e.id = m.id ∧ scoreRank e < scoreRank m
    · simp only [Function.comp_apply, if_pos hc]
      exact hc.1.symm
    · simp only [Function.comp_apply, if_neg hc]
  · rw [if_neg h, if_neg h, List.map_append]
    rfl

theorem foldl_mergeStep_ids_nodup :
    ∀ (pool acc : List MergeMatch),
    ((acc.map MergeMatch.id).Nodup) →
    ((pool.foldl mergeStep acc).map MergeMatch.id).Nodup := by
  intro pool
  induction pool with
  | nil =>
    intro acc hacc
    exact hacc
  | cons m rest ih =>
    intro acc hacc
    refine ih (mergeStep acc m) ?_
    rw [mergeStep_ids]
    by_cases h : acc.any (fun x => x.id = m.id)
    · rw [if_pos h]
      exact hacc
    · rw [if_neg h]
      have hnm : m.id ∉ acc.map MergeMatch.id := by
        intro hmem
        obtain ⟨x, hx, hxid⟩ := List.mem_map.mp hmem
        refine h ?_
        rw [List.any_eq_true]
        exact ⟨x, hx, by simpa using hxid⟩
      simp [List.nodup_append, hacc, hnm]

theorem mergeStep_dominates (acc : List MergeMatch) (m e : MergeMatch)
    (he : e ∈ acc) :
    ∃ e' ∈ mergeStep acc m, e'.id = e.id ∧ scoreRank e ≤ scoreRank e' := by
  unfold mergeStep
  by_cases h : acc.any (fun x => x.id = m.id)
  · rw [if_pos h]
    refine ⟨if e.id = m.id ∧ scoreRank e < scoreRank m then m else e,
      List.mem_map_of_mem _ he, ?_⟩
    by_cases hc : e.id = m.id ∧ scoreRank e < scoreRank m
    · rw [if_pos hc]
      exact ⟨hc.1.symm, le_of_lt hc.2⟩
    · rw [if_neg hc]
      exact ⟨rfl, le_refl _⟩
  · rw [if_neg h]
    exact ⟨e, List.mem_append_left _ he, rfl, le_refl _⟩

theorem mergeStep_dominates_self (acc : List MergeMatch) (m : MergeMatch) :
    ∃ e' ∈ mergeStep acc m, e'.id = m.id ∧ scoreRank m ≤ scoreRank e' := by
  unfold mergeStep
  by_cases h : acc.any (fun x => x.id = m.id)
  · rw [if_pos h]
    obtain ⟨x, hx, hxid⟩ := List.any_eq_true.mp h
    have hxid' : x.id = m.id := by simpa using hxid
    refine ⟨if x.id = m.id ∧ scoreRank x < scoreRank m then m else x,
      List.mem_map_of_mem _ hx, ?_⟩
    by_cases hc : x.id = m.id ∧ scoreRank x < scoreRank m
    · rw [if_pos hc]
      exact ⟨rfl, le_refl _⟩
    · rw [if_neg hc]
      refine ⟨hxid', ?_⟩
      rcases not_and_or.mp hc with hc' | hc'
      · exact absurd hxid' hc'
      · exact le_of_not_lt hc'
  · rw [if_neg h]
    exact ⟨m, List.mem_append_right _ (by simp), rfl, le_refl _⟩

theorem foldl_mergeStep_dominates :
    ∀ (pool acc : List MergeMatch) (x : MergeMatch),
    ((∃ e ∈ acc, e.id = x.id ∧ scoreRank x ≤ scoreRank e) ∨ x ∈ pool) →
    ∃ e ∈ pool.foldl mergeStep acc, e.id = x.id ∧
      scoreRank x ≤ scoreRank e := by
  intro pool
  induction pool with
  | nil =>
    intro acc x hx
    rcases hx with hx | hx
    · exact hx
    · exact absurd hx (List.not_mem_nil x)
  | cons m rest ih =>
    intro acc x hx
    refine ih (mergeStep acc m) x ?_
    rcases hx with ⟨e, he, heid, hle⟩ | hx
    · obtain ⟨e', he', he'id, hle'⟩ := mergeStep_dominates acc m e he
      exact Or.inl ⟨e', he', he'id.trans heid, le_trans hle hle'⟩
    · rcases List.mem_cons.mp hx with hx | hx
      · subst hx
        obtain ⟨e', he', he'id, hle'⟩ := mergeStep_dominates_self acc x
        exact Or.inl ⟨e', he', he'id, hle'⟩
      · exact Or.inr hx

/-! ### Vector id lemmas -/

theorem zip_map_fst {α β γ : Type} (f : α → γ) :
    ∀ (l1 : List α) (l2 : List β), l1.length ≤ l2.length →
      (l1.zip l2).map (fun p => f p.1) = l1.map f := by
  intro l1
  induction l1 with
  | nil => intro l2 _; rfl
  | cons a l1' ih =>
    intro l2 h
    cases l2 with
    | nil => simp at h
    | cons b l2' =>
      simp only [List.zip_cons_cons, List.map_cons]
      rw [ih l2' (by simpa using h)]

theorem createVectorsLoop_ids (e : List String → List (List ℚ))
    (bm : Chunk → List (String × PyVal)) (H : String → String)
    (docId : String) (hlen : ∀ ts, (e ts).length = ts.length) :
    ∀ (fuel : Nat) (cs : List Chunk) (ts : List String),
      ts.length = cs.length → cs.length ≤ fuel →
      (createVectorsLoop e bm H docId fuel cs ts).map PVector.id =
        cs.map (chunkVectorId H docId) := by
  intro fuel
  induction fuel with
  | zero =>
    intro cs ts _ hcs
    have : cs = [] := List.eq_nil_of_length_eq_zero (Nat.le_zero.mp hcs)
    subst this
    rfl
  | succ fuel ih =>
    intro cs ts hts hcs
    cases cs with
    | nil => rfl
    | cons c cs' =>
      simp only [createVectorsLoop, List.map_append]
      have h1 : ((((c :: cs').take 100).zip (e (ts.take 100))).map
          (fun p => mkEnhancedVector bm H docId p.1 p.2)).map PVector.id =
          ((c :: cs').take 100).map (chunkVectorId H docId) := by
        rw [List.map_map]
        exact zip_map_fst (chunkVectorId H docId) ((c :: cs').take 100)
          (e (ts.take 100))
          (by simp [hlen, List.length_take, hts])
      have h2 : (createVectorsLoop e bm H docId fuel ((c :: cs').drop 100)
          (ts.drop 100)).map PVector.id =
          ((c :: cs').drop 100).map (chunkVectorId H docId) := by
        refine ih _ _ (by simp [hts]) ?_
        simp only [List.length_drop]
        have : (c :: cs').length = cs'.length + 1 := by simp
        omega
      rw [h1, h2, ← List.map_append, List.take_append_drop]

theorem enhance_preserves_ids
    (enrich : String → Option String → String × PyVal)
    (H : String → String) (docId : String) (chunks : List Chunk) :
    (enhance_chunks_for_rag enrich chunks).map (chunkVectorId H docId) =
      chunks.map (chunkVectorId H docId) := by
  unfold enhance_chunks_for_rag
  rw [List.map_map]
  rfl

/-! ## Claim theorems (C1, C9, C10) -/

/-- C1. For every document text and configured threshold, the hybrid mode
decision returns mode `full_context` iff the text length is at most the
threshold (default 100,000); in particular a text of length exactly the
threshold yields `full_context`, and length threshold+1 yields `embeddings`. -/
theorem hybrid_mode_boundary (limit : Nat) (t : String) :
    defaultFullContextLimit = 100000 ∧
    ((get_processing_mode ⟨limit⟩ t).mode = "full_context" ↔ t.length ≤ limit) ∧
    (should_use_full_context ⟨limit⟩ t = true ↔ t.length ≤ limit) ∧
    (t.length = limit → (get_processing_mode ⟨limit⟩ t).mode = "full_context") ∧
    (t.length = limit + 1 → (get_processing_mode ⟨limit⟩ t).mode = "embeddings") := by
  refine ⟨rfl, ?_, ?_, ?_, ?_⟩
  · simp only [get_processing_mode, should_use_full_context]
    by_cases h : t.length ≤ limit <;> simp [h]
  · simp [should_use_full_context]
  · intro h
    simp [get_processing_mode, should_use_full_context, h]
  · intro h
    simp [get_processing_mode, should_use_full_context, h]

/-- Witness for `hybrid_mode_boundary` at threshold 3 with texts of length
3 and 4. -/
theorem hybrid_mode_boundary_witness :
    (get_processing_mode ⟨3⟩ "abc").mode = "full_context" ∧
    (get_processing_mode ⟨3⟩ "abcd").mode = "embeddings" :=
  ⟨(hybrid_mode_boundary 3 "abc").2.2.2.1 (by decide),
   (hybrid_mode_boundary 3 "abcd").2.2.2.2 (by decide)⟩

/-- C10. The effective `top_k` used for retrieval by the chat endpoint is
always at least 12: the requested value is parsed as an integer, replaced by
the default 10 when absent or unparsable, and raised to 12 when below 12. -/
theorem chat_top_k_at_least_twelve (session_id : Option String)
    (sessionExists : Bool) (message : String) (top_k_raw : Option Int)
    (debug_raw : Option String) (k : Int) (m : String) (d : Bool)
    (h : chatCreate session_id sessionExists message top_k_raw debug_raw =
      .proceed k m d) :
    12 ≤ k ∧ k = effectiveTopK top_k_raw ∧ effectiveTopK none = 12 := by
  have hk : k = effectiveTopK top_k_raw := by
    unfold chatCreate at h
    by_cases h1 : session_id.getD "" = "" <;> simp [h1] at h
    by_cases h2 : pyStrip message = "" <;> simp [h2] at h
    by_cases h3 : sessionExists <;> simp [h3] at h
    exact h.1.symm
  refine ⟨?_, hk, rfl⟩
  rw [hk]
  unfold effectiveTopK
  by_cases hlt : top_k_raw.getD 10 < 12
  · simp [hlt]
  · simp only [hlt, if_false]
    omega

/-- Witness for `chat_top_k_at_least_twelve`: a request asking for
`top_k = 5` proceeds with effective `top_k = 12`. -/
theorem chat_top_k_at_least_twelve_witness :
    12 ≤ (12 : Int) ∧ (12 : Int) = effectiveTopK (some 5) ∧
      effectiveTopK none = 12 :=
  chat_top_k_at_least_twelve (some "s1") true "what is the sum" (some 5)
    none 12 "what is the sum" false (by decide)

/-- C9 counterexample. A request carrying an invalid (unparsable) `top_k` is
not rejected: with a valid session and message it proceeds to retrieval
(with the default raised to 12), so invalid `top_k` values are not
"rejected before any external call" as the claim states. -/
theorem invalid_top_k_not_rejected :
    chatCreate (some "s1") true "what is the subcontract sum" none none =
      .proceed 12 "what is the subcontract sum" false := by decide

/-- C9 (amended). An empty or whitespace-only message is rejected with an
HTTP 400 response before any external call; an invalid `top_k` is not
rejected but silently replaced by the default 10 and then raised to 12. -/
theorem empty_message_rejected_invalid_top_k_defaulted
    (sid : String) (sessionExists : Bool) (message : String)
    (top_k_raw : Option Int) (debug_raw : Option String)
    (hsid : sid ≠ "") :
    (pyStrip message = "" →
      chatCreate (some sid) sessionExists message top_k_raw debug_raw =
        .badRequest "Message cannot be empty.") ∧
    (pyStrip message ≠ "" → sessionExists = true →
      chatCreate (some sid) sessionExists message none debug_raw =
        .proceed 12 (pyStrip message)
          (pyLower (debug_raw.getD "false") == "true")) := by
  constructor
  · intro hmsg
    simp [chatCreate, hsid, hmsg]
  · intro hmsg hex
    simp [chatCreate, hsid, hmsg, hex, effectiveTopK]

/-- Witness for `empty_message_rejected_invalid_top_k_defaulted`: a
whitespace-only message is rejected, and a real message with unparsable
`top_k` proceeds with `top_k = 12`. -/
theorem empty_message_rejected_invalid_top_k_defaulted_witness :
    (chatCreate (some "s1") true "   " (some 20) none =
      .badRequest "Message cannot be empty.") ∧
    (chatCreate (some "s1") true "hello" none none =
      .proceed 12 "hello" false) := by
  have h := empty_message_rejected_invalid_top_k_defaulted "s1" true "   "
    (some 20) none (by decide)
  have h2 := empty_message_rejected_invalid_top_k_defaulted "s1" true "hello"
    none none (by decide)
  refine ⟨h.1 (by decide), ?_⟩
  have := h2.2 (by decide) rfl
  simpa using this

/-! ## Claim theorems (C4, C6, C7) -/

/-- C4. Chunking is deterministic: for every text and fixed
(max_tokens, overlap_tokens, token model), two runs of `chunk_text` on the
same input produce identical sequences of (text, hash, index) triples.
The embedded `chunk_text` is a pure function of its inputs (the source's
only collaborators, tiktoken and sha256, are deterministic), so the two
runs coincide definitionally. -/
theorem chunking_deterministic (tc : String → Nat) (H : String → String)
    (maxT ovT : Nat) (text : String) :
    (chunk_text tc H maxT ovT text).map (fun c => (c.text, c.hash, c.index)) =
      (chunk_text tc H maxT ovT text).map
        (fun c => (c.text, c.hash, c.index)) := rfl

/-- C6. Coverage: every output chunk splits as overlap paragraphs (repeated
from the previous chunk) followed by its new paragraphs; the new paragraphs
of all chunks concatenate to exactly the paragraph list of the input, so
joining the chunk texts with their overlap prefixes removed rebuilds the
whitespace-normalized input text (`'\n\n'.join` of its stripped
paragraphs), with nothing dropped or duplicated. -/
theorem chunk_coverage (tc : String → Nat) (H : String → String)
    (maxT ovT : Nat) (text : String) :
    chunk_text tc H maxT ovT text =
        (chunkAnnOf tc maxT ovT text).map (renderAnn H) ∧
    ((chunkAnnOf tc maxT ovT text).map AnnChunk.newParas).flatten =
        paragraphsOf text ∧
    (∀ a ∈ chunkAnnOf tc maxT ovT text,
        (renderAnn H a).text = joinSep "\n\n" (a.ovParas ++ a.newParas) ∧
        a.newParas ≠ []) ∧
    joinSep "\n\n" ((chunkAnnOf tc maxT ovT text).map
        (fun a => joinSep "\n\n" a.newParas)) =
      joinSep "\n\n" (paragraphsOf text) := by
  have hproj : chunk_text tc H maxT ovT text =
      (chunkAnnOf tc maxT ovT text).map (renderAnn H) :=
    chunkCore_eq_chunkAnn tc H maxT ovT (paragraphsOf text) [] [] [] 0 none
      .first
  have hjoin : ((chunkAnnOf tc maxT ovT text).map AnnChunk.newParas).flatten =
      paragraphsOf text := by
    have := chunkAnn_newParas_join tc maxT ovT (paragraphsOf text) [] [] [] 0
      none .first
    simpa [chunkAnnOf] using this
  have hne : ∀ a ∈ chunkAnnOf tc maxT ovT text, a.newParas ≠ [] :=
    chunkAnn_newParas_ne_nil tc maxT ovT (paragraphsOf text) [] [] [] 0 none
      .first (by simp) (fun _ => rfl)
  refine ⟨hproj, hjoin, fun a ha => ⟨rfl, hne a ha⟩, ?_⟩
  have hmm : (chunkAnnOf tc maxT ovT text).map
        (fun a => joinSep "\n\n" a.newParas) =
      ((chunkAnnOf tc maxT ovT text).map AnnChunk.newParas).map
        (joinSep "\n\n") := by
    simp [List.map_map, Function.comp]
  rw [hmm, ← hjoin]
  exact joinSep_nested "\n\n"
    ((chunkAnnOf tc maxT ovT text).map AnnChunk.newParas)
    (by
      intro l hl
      obtain ⟨a, ha, hal⟩ := List.mem_map.mp hl
      exact hal ▸ hne a ha)

/-- Witness for `chunk_coverage`: on `"alpha beta\n\n1.0 SCOPE"` the second
chunk consists of no overlap paragraphs and the new paragraph
`"1.0 SCOPE"`. -/
theorem chunk_coverage_witness :
    (renderAnn testHash
        (⟨[], ["1.0 SCOPE"], some "1.0", 9, 1, Cause.header⟩ : AnnChunk)).text =
      joinSep "\n\n" ([] ++ ["1.0 SCOPE"]) ∧
    (["1.0 SCOPE"] : List String) ≠ [] :=
  (chunk_coverage charTokens testHash 800 150 "alpha beta\n\n1.0 SCOPE").2.2.1
    ⟨[], ["1.0 SCOPE"], some "1.0", 9, 1, Cause.header⟩ (by decide)

/-- C7 counterexample. With `overlap_tokens = 150` and the token counter
counting one token per character, the text `"alpha beta\n\n1.0 SCOPE"`
chunks into two chunks whose boundary is forced by the section header
`"1.0 SCOPE"`. The previous chunk's text `"alpha beta"` has 10 tokens, so
its last 150 tokens are the whole text; yet the second chunk's text is
exactly `"1.0 SCOPE"`, which does not start with it — a non-first chunk
that is not prefixed with the last `overlap_tokens` tokens of the previous
chunk, contradicting the claim for header-forced boundaries. -/
theorem chunk_overlap_counterexample :
    chunk_text charTokens testHash 800 150 "alpha beta\n\n1.0 SCOPE" =
      [{ text := "alpha beta", hash := testHash "alpha beta", index := 0,
         sectionLabel := none, tokens := 10 },
       { text := "1.0 SCOPE", hash := testHash "1.0 SCOPE", index := 1,
         sectionLabel := some "1.0", tokens := 9 }] ∧
    listStarts "alpha beta".data "1.0 SCOPE".data = false :=
  ⟨rfl, rfl⟩

/-- C7 (amended). In the output of `chunk_text`, a chunk whose boundary was
forced by the size limit is prefixed with the greedy suffix of whole
paragraphs of the previous chunk whose token total fits within
`overlap_tokens` (its hash is computed over the prefixed text and its index
is its position); the first chunk and chunks starting at a section-header
boundary receive no overlap prefix. -/
theorem chunk_overlap_amended (tc : String → Nat) (H : String → String)
    (maxT ovT : Nat) (text : String) :
    chunk_text tc H maxT ovT text =
        (chunkAnnOf tc maxT ovT text).map (renderAnn H) ∧
    List.Chain' (overlapRel tc ovT) (chunkAnnOf tc maxT ovT text) ∧
    (∀ a ∈ chunkAnnOf tc maxT ovT text,
        a.cause ≠ Cause.size → a.ovParas = []) ∧
    (∀ a ∈ chunkAnnOf tc maxT ovT text,
        (renderAnn H a).text = joinSep "\n\n" (a.ovParas ++ a.newParas) ∧
        (renderAnn H a).hash = H ((renderAnn H a).text)) ∧
    (chunkAnnOf tc maxT ovT text).map AnnChunk.index =
      List.range (chunkAnnOf tc maxT ovT text).length := by
  refine ⟨chunkCore_eq_chunkAnn tc H maxT ovT (paragraphsOf text) [] [] [] 0
      none .first, ?_, ?_, fun a ha => ⟨rfl, rfl⟩, ?_⟩
  · exact chunkAnn_chain tc maxT ovT (paragraphsOf text) [] [] [] 0 none
      .first (List.chain'_singleton _)
  · exact chunkAnn_ovParas_eq_nil tc maxT ovT (paragraphsOf text) [] [] [] 0
      none .first (by simp) (fun _ => rfl)
  · exact chunkAnn_index_range tc maxT ovT (paragraphsOf text) [] [] [] 0
      none .first (by simp)

/-- Witness for `chunk_overlap_amended`: on a document where the size limit
forces the second boundary, the second chunk's overlap is the greedy
paragraph suffix `["cccc"]` of the first chunk. -/
theorem chunk_overlap_amended_witness :
    (⟨[], ["aaaa", "bbbb", "cccc"], none, 12, 0, Cause.first⟩ : AnnChunk).cause
        ≠ Cause.size →
      (⟨[], ["aaaa", "bbbb", "cccc"], none, 12, 0,
        Cause.first⟩ : AnnChunk).ovParas = [] :=
  (chunk_overlap_amended charTokens testHash 12 6
      "aaaa\n\nbbbb\n\ncccc\n\ndddd").2.2.1
    ⟨[], ["aaaa", "bbbb", "cccc"], none, 12, 0, Cause.first⟩ (by decide)

/-- The rational 0.81 as an explicit reduced fraction (written with the
`Rat` constructor so that kernel evaluation of witness terms does not have
to normalize a division). -/
def score081 : ℚ := ⟨81, 100, by decide, by decide⟩

/-- The rational 0.93 as an explicit reduced fraction. -/
def score093 : ℚ := ⟨93, 100, by decide, by decide⟩

theorem score081_eq : score081 = 81 / 100 := by
  rw [score081, Rat.mk'_eq_divInt, Rat.divInt_eq_div]
  norm_num

theorem score093_eq : score093 = 93 / 100 := by
  rw [score093, Rat.mk'_eq_divInt, Rat.divInt_eq_div]
  norm_num

/-! ## Claim theorems (C2, C8) -/

/-- C2. Fallback rule of `smart_retrieval`: if the primary filtered query
returns fewer than `max(3, top_k // 2)` matches, a second unfiltered query
with the same query and `top_k` is issued and its results are used instead
of the filtered results; in particular with `top_k = 10` and 2 primary
matches the fallback results are used (`2 < max(3, 5)`). Otherwise the
primary results are kept. -/
theorem smart_retrieval_fallback
    (similarity_search : String → Nat → Option PineconeFilter → QueryResponse)
    (query : String) (top_k : Nat) (auto_filter : Bool) :
    ((smartPrimary similarity_search query top_k auto_filter).length <
        max 3 (top_k / 2) →
      smart_retrieval similarity_search query top_k auto_filter =
        normalizeMatches ((similarity_search query top_k none).extract)) ∧
    (¬ (smartPrimary similarity_search query top_k auto_filter).length <
        max 3 (top_k / 2) →
      smart_retrieval similarity_search query top_k auto_filter =
        normalizeMatches
          (smartPrimary similarity_search query top_k auto_filter)) ∧
    (top_k = 10 →
      (smartPrimary similarity_search query top_k auto_filter).length = 2 →
      smart_retrieval similarity_search query top_k auto_filter =
        normalizeMatches ((similarity_search query top_k none).extract)) := by
  refine ⟨?_, ?_, ?_⟩
  · intro h
    simp only [smart_retrieval]
    rw [if_pos h]
  · intro h
    simp only [smart_retrieval]
    rw [if_neg h]
  · intro hk hlen
    subst hk
    simp only [smart_retrieval]
    rw [if_pos (by rw [hlen]; decide)]

/-- A concrete vector store for witnesses: filtered queries return two
matches, unfiltered queries return six. -/
def demoSearch : String → Nat → Option PineconeFilter → QueryResponse :=
  fun _ _ f =>
    match f with
    | some _ => QueryResponse.dictResp (some
        [RawMatch.map [("id", PyVal.str "a")],
         RawMatch.map [("id", PyVal.str "b")]])
    | none => QueryResponse.dictResp (some
        [RawMatch.map [("id", PyVal.str "a")],
         RawMatch.map [("id", PyVal.str "b")],
         RawMatch.map [("id", PyVal.str "c")],
         RawMatch.map [("id", PyVal.str "d")],
         RawMatch.map [("id", PyVal.str "e")],
         RawMatch.map [("id", PyVal.str "f")]])

/-- Witness for `smart_retrieval_fallback`: the query
`"what is the subcontract sum"` triggers the financial filter, the primary
pass returns 2 matches, and with `top_k = 10` the unfiltered fallback's six
results are the ones normalized and returned. -/
theorem smart_retrieval_fallback_witness :
    smart_retrieval demoSearch "what is the subcontract sum" 10 true =
      normalizeMatches ((demoSearch "what is the subcontract sum" 10
        none).extract) :=
  (smart_retrieval_fallback demoSearch "what is the subcontract sum" 10
    true).2.2 rfl (by decide)

/-- C8 counterexample. An object-like match whose `score` attribute is
`0.0` makes the normalization loop raise: `getattr(m, "score", None)`
returns the falsy `0.0`, so the `or` falls through to `m.get("score")`,
which raises `AttributeError` on an object without a `get` method. The
claim that every match normalizes without raising — including matches with
score `0.0` — is therefore false. -/
theorem normalization_raises_counterexample :
    normalizeMatches
        [RawMatch.obj (PyVal.str "v1") (PyVal.num 0)
          (PyVal.dict [("text", PyVal.str "x")])] = .error () := rfl

/-- C8 (amended). Map-like matches always normalize into the canonical
`{id, score, metadata}` dict without raising (including score `0.0` and
empty-string id, whose values are taken from the dict entries); an
object-like match normalizes without raising exactly when its `id`, `score`
and `metadata` attribute values are all truthy, in which case the attribute
values are used. -/
theorem normalization_amended (entries : List (String × PyVal))
    (i s md : PyVal) (ms : List RawMatch)
    (hi : pyTruthy i = true) (hs : pyTruthy s = true)
    (hmd : pyTruthy md = true)
    (hms : ∀ m ∈ ms, ∃ e, m = RawMatch.map e) :
    normalizeMatch (RawMatch.map entries) =
      .ok ⟨(entries.lookup "id").getD .pyNone,
           (entries.lookup "score").getD .pyNone,
           (entries.lookup "metadata").getD (.dict [])⟩ ∧
    normalizeMatch (RawMatch.obj i s md) = .ok ⟨i, s, md⟩ ∧
    ∃ l, normalizeMatches ms = .ok l ∧ l.length = ms.length := by
  refine ⟨rfl, ?_, ?_⟩
  · have h1 : normField (RawMatch.obj i s md) "id" .pyNone = .ok i := by
      simp [normField, RawMatch.attrOr, hi]
    have h2 : normField (RawMatch.obj i s md) "score" .pyNone = .ok s := by
      simp [normField, RawMatch.attrOr, hs]
    have h3 : normField (RawMatch.obj i s md) "metadata" (.dict []) =
        .ok md := by
      simp [normField, RawMatch.attrOr, hmd]
    unfold normalizeMatch
    simp only [h1, h2, h3]
    rfl
  · clear hi hs hmd i s md entries
    induction ms with
    | nil => exact ⟨[], rfl, rfl⟩
    | cons m rest ih =>
      obtain ⟨e, rfl⟩ := hms m (by simp)
      obtain ⟨l, hl, hlen⟩ := ih (fun x hx => hms x (by simp [hx]))
      refine ⟨⟨(e.lookup "id").getD .pyNone, (e.lookup "score").getD .pyNone,
        (e.lookup "metadata").getD (.dict [])⟩ :: l, ?_, by simp [hlen]⟩
      unfold normalizeMatches at hl ⊢
      rw [List.mapM_cons, hl]
      rfl

/-- Witness for `normalization_amended`: a map-like match with empty id and
zero score normalizes to the canonical dict, an object-like match with
truthy attributes normalizes to its attribute values, and a list of
map-like matches normalizes without raising. -/
theorem normalization_amended_witness :
    normalizeMatch (RawMatch.map
        [("id", PyVal.str ""), ("score", PyVal.num 0)]) =
      .ok ⟨PyVal.str "", PyVal.num 0, PyVal.dict []⟩ ∧
    normalizeMatch (RawMatch.obj (PyVal.str "v1") (PyVal.num score081)
        (PyVal.dict [("a", PyVal.pyNone)])) =
      .ok ⟨PyVal.str "v1", PyVal.num score081,
        PyVal.dict [("a", PyVal.pyNone)]⟩ ∧
    ∃ l, normalizeMatches [RawMatch.map [("id", PyVal.str "")]] = .ok l ∧
      l.length = 1 :=
  normalization_amended [("id", PyVal.str ""), ("score", PyVal.num 0)]
    (PyVal.str "v1") (PyVal.num score081) (PyVal.dict [("a", PyVal.pyNone)])
    [RawMatch.map [("id", PyVal.str "")]]
    (by decide) (by decide) (by decide)
    (fun m hm => ⟨[("id", PyVal.str "")], by simpa using hm⟩)

/-! ## Claim theorems (C3, C5) -/

/-- C5. Idempotent indexing: re-ingesting an unchanged document produces
the exact same list of vector ids as the prior ingestion — the ids do not
depend on the embedding gateway, the semantic enricher, or the metadata
builder (which embeds a timestamp); each id is the deterministic string
`"<document_id>:<chunk_index>:<first 8 chars of the chunk hash>"`. The only
assumption is the embedding gateway contract that `_embed_batch` returns
one embedding per input text. -/
theorem ingestion_idempotent_vector_ids (tc : String → Nat)
    (H : String → String) (maxT ovT : Nat)
    (r1 r2 : String → Option String → String × PyVal)
    (e1 e2 : List String → List (List ℚ))
    (bm1 bm2 : Chunk → List (String × PyVal))
    (docId text : String)
    (hlen1 : ∀ ts, (e1 ts).length = ts.length)
    (hlen2 : ∀ ts, (e2 ts).length = ts.length) :
    (storeVectors tc H maxT ovT r1 e1 bm1 docId text).map PVector.id =
      (storeVectors tc H maxT ovT r2 e2 bm2 docId text).map PVector.id ∧
    (storeVectors tc H maxT ovT r1 e1 bm1 docId text).map PVector.id =
      (chunk_text tc H maxT ovT text).map (chunkVectorId H docId) := by
  have key : ∀ (e : List String → List (List ℚ))
      (bm : Chunk → List (String × PyVal))
      (r : String → Option String → String × PyVal),
      (∀ ts, (e ts).length = ts.length) →
      (storeVectors tc H maxT ovT r e bm docId text).map PVector.id =
        (chunk_text tc H maxT ovT text).map (chunkVectorId H docId) := by
    intro e bm r hlen
    unfold storeVectors createEnhancedVectors
    rw [createVectorsLoop_ids e bm H docId hlen _ _ _ (by simp) (le_refl _)]
    exact enhance_preserves_ids r H docId _
  exact ⟨(key e1 bm1 r1 hlen1).trans (key e2 bm2 r2 hlen2).symm,
    key e1 bm1 r1 hlen1⟩

/-- A concrete embedding gateway for witnesses (one empty embedding per
text). -/
def demoEmbed (ts : List String) : List (List ℚ) := ts.map (fun _ => [])

/-- A concrete semantic enricher for witnesses. -/
def demoEnrich (t : String) (_ : Option String) : String × PyVal :=
  (t, PyVal.pyNone)

/-- A concrete metadata builder for witnesses. -/
def demoMeta (_ : Chunk) : List (String × PyVal) := []

/-- Witness for `ingestion_idempotent_vector_ids` at a concrete document. -/
theorem ingestion_idempotent_vector_ids_witness :
    (storeVectors charTokens testHash 800 150 demoEnrich demoEmbed demoMeta
        "doc1" "alpha beta\n\n1.0 SCOPE").map PVector.id =
      (chunk_text charTokens testHash 800 150
        "alpha beta\n\n1.0 SCOPE").map (chunkVectorId testHash "doc1") :=
  (ingestion_idempotent_vector_ids charTokens testHash 800 150
    demoEnrich demoEnrich demoEmbed demoEmbed demoMeta demoMeta
    "doc1" "alpha beta\n\n1.0 SCOPE"
    (fun ts => by simp [demoEmbed]) (fun ts => by simp [demoEmbed])).2

/-- C3. `ResultMerger.merge` (modelled from the spec, which has no merger
implementation among the embedded sources) deduplicates by vector id
keeping for each id an entry with the maximal score among its duplicates,
returns only pooled entries, sorts descending by score with scoreless
entries ranked at bottom, and merges the pool with duplicate id `"v1"` and
scores 0.81 / 0.93 to exactly one entry with score 0.93. -/
theorem result_merger_dedup (pool : List MergeMatch) :
    ((ResultMerger_merge pool).map MergeMatch.id).Nodup ∧
    List.Sorted scoreGE (ResultMerger_merge pool) ∧
    (∀ e ∈ ResultMerger_merge pool, e ∈ pool) ∧
    (∀ x ∈ pool, ∃ e ∈ ResultMerger_merge pool,
        e.id = x.id ∧ scoreRank x ≤ scoreRank e) ∧
    (score081 = 81 / 100 ∧ score093 = 93 / 100 ∧
      ResultMerger_merge
          [⟨"v1", some score081, PyVal.pyNone⟩,
           ⟨"v1", some score093, PyVal.pyNone⟩] =
        [⟨"v1", some score093, PyVal.pyNone⟩]) := by
  have hperm : List.Perm (ResultMerger_merge pool) (dedupeById pool) :=
    List.perm_insertionSort scoreGE (dedupeById pool)
  refine ⟨?_, ?_, ?_, ?_, ?_⟩
  · have hnd : ((dedupeById pool).map MergeMatch.id).Nodup :=
      foldl_mergeStep_ids_nodup pool [] (by simp)
    exact ((hperm.map MergeMatch.id).nodup_iff).mpr hnd
  · exact List.sorted_insertionSort scoreGE (dedupeById pool)
  · intro e he
    have he' : e ∈ dedupeById pool := hperm.mem_iff.mp he
    rcases foldl_mergeStep_mem pool [] e he' with h | h
    · exact absurd h (List.not_mem_nil e)
    · exact h
  · intro x hx
    obtain ⟨e, he, heid, hle⟩ :=
      foldl_mergeStep_dominates pool [] x (Or.inr hx)
    exact ⟨e, hperm.mem_iff.mpr he, heid, hle⟩
  · exact ⟨score081_eq, score093_eq, rfl⟩

/-- Witness for `result_merger_dedup`: in the two-entry pool with duplicate
id, the merged result contains an entry with id `"v1"` scoring at least
0.81. -/
theorem result_merger_dedup_witness :
    ∃ e ∈ ResultMerger_merge
        [⟨"v1", some score081, PyVal.pyNone⟩,
         ⟨"v1", some score093, PyVal.pyNone⟩],
      e.id = (⟨"v1", some score081, PyVal.pyNone⟩ : MergeMatch).id ∧
      scoreRank (⟨"v1", some score081, PyVal.pyNone⟩ : MergeMatch) ≤
        scoreRank e :=
  (result_merger_dedup
      [⟨"v1", some score081, PyVal.pyNone⟩,
       ⟨"v1", some score093, PyVal.pyNone⟩]).2.2.2.1
    ⟨"v1", some score081, PyVal.pyNone⟩ (by simp)

end DocAnalyzer
